import Mathlib

set_option linter.unusedVariables false
set_option linter.unnecessarySeqFocus false

namespace Llvmcov

/-! Shallow embedding of the coverage segment-to-line reconstruction engine
    of llvmcov2html (src/main.cpp).  Source text is modelled as lists of
    characters; the C++ `unsigned` arithmetic is made explicit (modulo 2^32,
    wrap-around on subtraction) wherever overflow matters. -/

/-- The modulus 2^32 of the C++ 32-bit `unsigned` arithmetic. -/
def U32 : Nat := 4294967296

/-- The largest `unsigned` value, `~0u` in the source. -/
def UMAX : Nat := 4294967295

/-- Unsigned `n - 1` as computed on a C++ `unsigned`: wraps to `UMAX` at zero. -/
def usub1 (n : Nat) : Nat := if n = 0 then UMAX else n - 1

/-- Function `computePerc` from src/main.cpp: coverage in permille.  The product
    `hitLines * 1000` is computed in 32-bit unsigned arithmetic, hence the
    explicit reduction modulo `U32`. -/
def computePerc (hitLines executableLines : Nat) : Nat :=
  if hitLines = 0 ∨ executableLines = 0 then 0
  else
    let perc := hitLines * 1000 % U32 / executableLines
    if perc = 0 then 1 else perc

/-- The character class `\s` of the `std::regex` used by `isTrivialCode`. -/
def isSpaceChar (c : Char) : Bool :=
  c = ' ' || c = '\t' || c = '\n' || c = '\x0b' || c = '\x0c' || c = '\r'

/-- The character class `[{}]` of the `std::regex` used by `isTrivialCode`. -/
def isBraceChar (c : Char) : Bool := c = '{' || c = '}'

/-- Matcher for the regex alternative `^\s*$` (empty or whitespace only). -/
def matchesSpaces (s : List Char) : Bool := s.all isSpaceChar

/-- Matcher for the regex alternative `^\s*[{}]*\s*$`: leading whitespace,
    then a contiguous run of braces, then trailing whitespace. -/
def matchesBraces (s : List Char) : Bool :=
  ((s.dropWhile isSpaceChar).dropWhile isBraceChar).all isSpaceChar

/-- Predicate `isTrivialCode` from src/main.cpp: the regex
    `^\s*$|^;$|^\s*[{}]*\s*$|^t$`, matched against the whole fragment. -/
def isTrivialCode (s : List Char) : Bool :=
  matchesSpaces s || s == [';'] || matchesBraces s || s == ['t']

/-- The language of the regex alternative `^\s*[{}]*\s*$`: a whitespace
    block, then a contiguous brace block, then a whitespace block. -/
def BracesLang (s : List Char) : Prop :=
  ∃ a b c, s = a ++ b ++ c ∧ (∀ x ∈ a, isSpaceChar x = true) ∧
    (∀ x ∈ b, isBraceChar x = true) ∧ ∀ x ∈ c, isSpaceChar x = true

theorem braceChar_not_space {x : Char} (h : isBraceChar x = true) :
    isSpaceChar x = false := by
  simp only [isBraceChar, Bool.or_eq_true, decide_eq_true_eq] at h
  rcases h with h | h <;> subst h <;> decide

theorem spaceChar_not_brace {x : Char} (h : isSpaceChar x = true) :
    isBraceChar x = false := by
  simp only [isSpaceChar, Bool.or_eq_true, decide_eq_true_eq] at h
  rcases h with ((((h | h) | h) | h) | h) | h <;> subst h <;> decide

theorem dropWhile_brace_of_all_space {c : List Char}
    (hc : ∀ x ∈ c, isSpaceChar x = true) :
    c.dropWhile isBraceChar = c := by
  cases c with
  | nil => rfl
  | cons z zs =>
    have : isBraceChar z = false := spaceChar_not_brace (hc z (by simp))
    simp [List.dropWhile_cons, this]

theorem dropWhile_brace_append {b c : List Char}
    (hb : ∀ x ∈ b, isBraceChar x = true)
    (hc : ∀ x ∈ c, isSpaceChar x = true) :
    (b ++ c).dropWhile isBraceChar = c := by
  induction b with
  | nil => simpa using dropWhile_brace_of_all_space hc
  | cons y ys ih =>
    have hy : isBraceChar y = true := hb y (by simp)
    have ihh := ih (fun x hx => hb x (by simp [hx]))
    simp [List.dropWhile_cons, hy, ihh]

theorem matchesBraces_iff (s : List Char) :
    matchesBraces s = true ↔ BracesLang s := by
  constructor
  · intro h
    refine ⟨s.takeWhile isSpaceChar,
      (s.dropWhile isSpaceChar).takeWhile isBraceChar,
      (s.dropWhile isSpaceChar).dropWhile isBraceChar, ?_, ?_, ?_, ?_⟩
    · rw [List.append_assoc, List.takeWhile_append_dropWhile,
        List.takeWhile_append_dropWhile]
    · exact fun x hx => List.mem_takeWhile_imp hx
    · exact fun x hx => List.mem_takeWhile_imp hx
    · simpa [matchesBraces, List.all_eq_true] using h
  · rintro ⟨a, b, c, rfl, ha, hb, hc⟩
    induction a with
    | nil =>
      cases b with
      | nil =>
        have : c.dropWhile isSpaceChar = [] :=
          List.dropWhile_eq_nil_iff.mpr (by intro x hx; exact hc x hx)
        simp [matchesBraces, this]
      | cons y ys =>
        have hy : isBraceChar y = true := hb y (by simp)
        have hys : ∀ x ∈ ys, isBraceChar x = true :=
          fun x hx => hb x (by simp [hx])
        have hdrop : ((y :: ys) ++ c).dropWhile isSpaceChar = (y :: ys) ++ c := by
          simp [List.dropWhile_cons, braceChar_not_space hy]
        simp only [matchesBraces, List.nil_append, hdrop]
        have hball : ∀ x ∈ (y :: ys), isBraceChar x = true := by
          intro x hx
          rcases List.mem_cons.mp hx with h | h
          · subst h; exact hy
          · exact hys x h
        have hstep : ((y :: ys) ++ c).dropWhile isBraceChar = c :=
          dropWhile_brace_append hball hc
        rw [hstep]
        simpa [List.all_eq_true] using hc
    | cons x xs ih =>
      have hx : isSpaceChar x = true := ha x (by simp)
      have ihh := ih (fun y hy => ha y (by simp [hy]))
      simpa [matchesBraces, List.dropWhile_cons, hx] using ihh

/-- Claim C5, counterexample: `computePerc` does its `hit * 1000` multiplication in
    32-bit unsigned arithmetic, so for `hit = total = 5000000` the product
    wraps and the result is 141 permille, not the claimed
    `floor(hit*1000/total) = 1000`. -/
theorem c5_counterexample :
    computePerc 5000000 5000000 = 141 ∧ (141 : Nat) ≠ 1000 := by
  constructor
  · decide
  · decide

/-- Claim C5, amended: provided `hit * 1000` does not overflow 32-bit unsigned
    arithmetic (`hit * 1000 < 2^32`, i.e. `hit ≤ 4294967`), `computePerc`
    returns 0 when either argument is 0 and otherwise
    `floor(hit*1000/total)` raised to 1 when that floor would be 0; in
    particular `computePerc 0 N = 0`, `computePerc N N = 1000` for `N > 0`
    in that range, and `computePerc 1 1000 = 1`. -/
theorem c5_amended (h t : Nat) (hov : h * 1000 < U32) :
    computePerc h t = (if t = 0 ∨ h = 0 then 0 else max 1 (h * 1000 / t)) ∧
    computePerc 0 t = 0 ∧
    (0 < h → computePerc h h = 1000) ∧
    computePerc 1 1000 = 1 := by
  refine ⟨?_, ?_, ?_, by decide⟩
  · unfold computePerc
    rcases Nat.eq_zero_or_pos h with hz | hpos
    · simp [hz]
    rcases Nat.eq_zero_or_pos t with tz | tpos
    · simp [tz, Nat.pos_iff_ne_zero.mp hpos]
    have hne : ¬(h = 0 ∨ t = 0) := by
      rintro (hc | hc) <;> omega
    have hne' : ¬(t = 0 ∨ h = 0) := by
      rintro (hc | hc) <;> omega
    rw [if_neg hne, if_neg hne', Nat.mod_eq_of_lt hov]
    rcases Nat.eq_zero_or_pos (h * 1000 / t) with dz | dpos
    · simp [dz]
    · rw [if_neg (Nat.pos_iff_ne_zero.mp dpos), Nat.max_eq_right dpos]
  · unfold computePerc
    simp
  · intro hpos
    unfold computePerc
    have hne : ¬(h = 0 ∨ h = 0) := by
      rintro (hc | hc) <;> omega
    rw [if_neg hne, Nat.mod_eq_of_lt hov]
    have : h * 1000 / h = 1000 := by
      rw [Nat.mul_comm]
      exact Nat.mul_div_cancel 1000 hpos
    simp [this]

/-- Claim C5 witness: instantiates the amended statement at `hit = 1`,
    `total = 1000`. -/
theorem c5_witness : 1 * 1000 < U32 ∧ computePerc 1 1000 = 1 :=
  ⟨by decide, (c5_amended 1 1000 (by decide)).2.2.2⟩

/-- Claim C6, counterexample: the string `"{ }"` consists only of whitespace and
    brace characters, yet `isTrivialCode` rejects it — the regex alternative
    `^\s*[{}]*\s*$` requires the braces to be contiguous, so the claim's
    "text consisting only of whitespace and brace characters" is too broad. -/
theorem c6_counterexample :
    (['{', ' ', '}'].all fun c => isSpaceChar c || isBraceChar c) = true ∧
    isTrivialCode ['{', ' ', '}'] = false := by
  constructor
  · decide
  · decide

/-- Claim C6, amended: `isTrivialCode` returns true exactly for: empty or
    whitespace-only text; the lone statement terminator `";"`; text of the
    shape whitespace-block, contiguous brace-block, whitespace-block; and
    the single character `"t"`. -/
theorem c6_amended (s : List Char) :
    isTrivialCode s = true ↔
      ((∀ x ∈ s, isSpaceChar x = true) ∨ s = [';'] ∨ BracesLang s ∨
        s = ['t']) := by
  unfold isTrivialCode matchesSpaces
  rw [Bool.or_eq_true, Bool.or_eq_true, Bool.or_eq_true]
  rw [List.all_eq_true, beq_iff_eq, beq_iff_eq, matchesBraces_iff]
  tauto

/-- A fragment of one source line, `SourceWriter::Part` in src/main.cpp. -/
structure Part where
  str : List Char
  count : Nat
  hasCode : Bool
  regionEntry : Bool
deriving Repr, DecidableEq

/-- The observable state of a `SourceWriter`: the fragments accumulated for
    the current line, the running statistics, the per-file hit and miss
    line-number lists (`coverageList[fileName]`), and `trace`, which records
    the `(lineNo, parts)` pair of every completed line in emission order —
    the HTML written by `finishLine` is a function of exactly that pair. -/
structure Writer where
  parts : List Part
  executableLines : Nat
  hitLines : Nat
  hits : List Nat
  misses : List Nat
  trace : List (Nat × List Part)
deriving Repr, DecidableEq

/-- Method `SourceWriter::addData`: append one fragment to the current line. -/
def addData (str : List Char) (count : Nat) (hasCode regionEntry : Bool)
    (w : Writer) : Writer :=
  { w with parts := w.parts ++ [⟨str, count, hasCode, regionEntry⟩] }

/-- Append a list of fragments (a run of consecutive `addData` calls). -/
def addParts (ps : List Part) (w : Writer) : Writer :=
  { w with parts := w.parts ++ ps }

/-- Counter `candidates` of `SourceWriter::finishLine`: fragments whose `hasCode`
    flag survives the trivial-code filter. -/
def candidatesOf (ps : List Part) : Nat :=
  ps.countP fun p => p.hasCode && !isTrivialCode p.str

/-- Counter `hitCandidates` of `SourceWriter::finishLine`: fragments with a nonzero
    count that survive the trivial-code filter (independent of `hasCode`). -/
def hitCandidatesOf (ps : List Part) : Nat :=
  ps.countP fun p => decide (p.count ≠ 0) && !isTrivialCode p.str

/-- Method `SourceWriter::finishLine`: classify the accumulated fragments, update
    the statistics and the hit/miss lists, emit the line, clear the buffer. -/
def finishLine (lineNo : Nat) (w : Writer) : Writer :=
  { parts := []
    executableLines := w.executableLines +
      if candidatesOf w.parts ≠ 0 then 1 else 0
    hitLines := w.hitLines +
      if candidatesOf w.parts ≠ 0 ∧ hitCandidatesOf w.parts ≠ 0 then 1 else 0
    hits := w.hits ++
      if candidatesOf w.parts ≠ 0 ∧ hitCandidatesOf w.parts ≠ 0 then [lineNo] else []
    misses := w.misses ++
      if candidatesOf w.parts ≠ 0 ∧ hitCandidatesOf w.parts = 0 then [lineNo] else []
    trace := w.trace ++ [(lineNo, w.parts)] }

/-- One source line with its exclusion span, `SourceReader::LineInfo`. -/
structure LineInfo where
  line : List Char
  ignoreFrom : Nat
  ignoreTo : Nat
deriving Repr, DecidableEq, Inhabited

def lcovStart : List Char := "LCOV_EXCL_START".data

def lcovStop : List Char := "LCOV_EXCL_STOP".data

def lcovLine : List Char := "LCOV_EXCL_LINE".data

/-- Whether `p` is a prefix of `s`, by character comparison. -/
def listStartsWith : List Char → List Char → Bool
  | _, [] => true
  | [], _ :: _ => false
  | c :: s, p :: ps => c == p && listStartsWith s ps

/-- Substring containment, `s.find(pat) != npos` of `std::string`. -/
def hasSubstr (s pat : List Char) : Bool :=
  if listStartsWith s pat then true
  else
    match s with
    | [] => false
    | _ :: t => hasSubstr t pat

/-- First pass of the `SourceReader` constructor: collect all lines, track
    the `LCOV_EXCL_START`/`STOP` block flag, give every excluded line the
    provisional span `[0, length+1)`, and record the indices of the lines
    excluded individually (by `LCOV_EXCL_LINE` or an extra ignore pattern). -/
def markLines (extraIgnore : List (List Char)) :
    List (List Char) → Bool → Nat → List LineInfo × List Nat
  | [], _, _ => ([], [])
  | s :: rest, ignoreBlock, idx =>
    let f : Bool × Bool × Bool :=
      if ignoreBlock then (true, !hasSubstr s lcovStop, false)
      else if hasSubstr s lcovStart then (true, true, false)
      else if hasSubstr s lcovLine then (true, false, true)
      else if extraIgnore.any (fun e => !e.isEmpty && hasSubstr s e) then
        (true, false, true)
      else (false, false, false)
    let li : LineInfo := ⟨s, 0, if f.1 then s.length + 1 else 0⟩
    let r := markLines extraIgnore rest f.2.1 (idx + 1)
    (li :: r.1, (if f.2.2 then [idx] else []) ++ r.2)

/-- Characters trimmed from the end of a line by the backward widening scan. -/
def isTrailTrim (c : Char) : Bool :=
  c = ' ' || c = '\t' || c = '\n' || c = '\r' || c = '{' || c = '}'

/-- Characters trimmed from the front of a line by the forward widening scan. -/
def isLeadTrim (c : Char) : Bool :=
  c = ' ' || c = '\t' || c = '\n' || c = '\r' || c = '}'

/-- Position `stop` of the backward scan: the length of the line after
    trimming trailing whitespace and braces. -/
def trailingStop (l : List Char) : Nat := (l.reverse.dropWhile isTrailTrim).length

/-- Position `stop` of the forward scan: the length of the leading run
    of whitespace and closing braces. -/
def leadingStop (l : List Char) : Nat := (l.takeWhile isLeadTrim).length

/-- One step of the backward widening loop: adjust a preceding line's span
    (dropping one trailing semicolon), and report whether the loop breaks. -/
def backAdjust (i : LineInfo) : LineInfo × Bool :=
  let stop := trailingStop i.line
  let willBreak := decide (0 < stop)
  let stop2 := if 0 < stop ∧ i.line.getD (stop - 1) ' ' = ';' then stop - 1 else stop
  let i2 :=
    if stop2 < i.line.length then
      if i.ignoreFrom ≠ i.ignoreTo then
        { i with ignoreFrom := 0, ignoreTo := i.line.length }
      else { i with ignoreFrom := stop2, ignoreTo := i.line.length }
    else i
  (i2, willBreak)

/-- The backward widening loop of the `SourceReader` constructor, started
    at the individually excluded line's index and scanning toward line 0. -/
def backLoop : List LineInfo → Nat → List LineInfo
  | lines, 0 => lines
  | lines, p + 1 =>
    let a := backAdjust (lines.getD p default)
    let lines2 := lines.set p a.1
    if a.2 then lines2 else backLoop lines2 p

/-- The forward widening loop of the `SourceReader` constructor (fuelled;
    the fuel supplied at the call site exceeds the iteration count). -/
def fwdLoop : Nat → List LineInfo → Nat → List LineInfo
  | 0, lines, _ => lines
  | fuel + 1, lines, next =>
    if next < lines.length then
      let i := lines.getD next default
      let stop := leadingStop i.line
      let i2 :=
        if 0 < stop then
          if i.ignoreFrom ≠ i.ignoreTo then
            { i with ignoreFrom := 0, ignoreTo := i.line.length }
          else { i with ignoreFrom := 0, ignoreTo := stop }
        else i
      let lines2 := lines.set next i2
      if stop < i.line.length then lines2 else fwdLoop fuel lines2 (next + 1)
    else lines

/-- Second pass of the constructor: for every individually excluded line,
    run the backward and then the forward widening loop. -/
def applyIgnores (lines : List LineInfo) (igs : List Nat) : List LineInfo :=
  igs.foldl (fun ls idx => fwdLoop ls.length (backLoop ls idx) (idx + 1)) lines

/-- The full `SourceReader` constructor: marking pass plus widening pass. -/
def mkLines (source extraIgnore : List (List Char)) : List LineInfo :=
  let (lis, igs) := markLines extraIgnore source false 0
  applyIgnores lis igs

/-- Function `getSubstr` from src/main.cpp: a substring that clamps out-of-bounds
    positions instead of failing. -/
def getSubstr (s : List Char) (start len : Nat) : List Char :=
  if s.length ≤ start then []
  else if s.length - start ≤ len then s.drop start
  else (s.drop start).take len

/-- The fragments `SourceReader::skipTo` synthesizes for one fully-skipped
    line: lines whose exclusion span is partial are split around the span
    (with `hasCode && count` inside it); otherwise one full-line fragment
    whose `hasCode` is suppressed on an excluded line with zero count. -/
def lineParts (i : LineInfo) (count : Nat) (hasCode : Bool)
    (regionEntry ln : Nat) : List Part :=
  if i.ignoreFrom ≠ i.ignoreTo ∧ (i.ignoreFrom ≠ 0 ∨ i.ignoreTo ≠ i.line.length) then
    (if i.ignoreFrom ≠ 0 then
      [⟨getSubstr i.line 0 i.ignoreFrom, count, hasCode, decide (ln = regionEntry)⟩]
    else []) ++
    [⟨getSubstr i.line i.ignoreFrom (i.ignoreTo - i.ignoreFrom), count,
      hasCode && decide (count ≠ 0), decide (ln = regionEntry)⟩] ++
    (if i.ignoreTo < i.line.length then
      [⟨getSubstr i.line i.ignoreTo i.line.length, count, hasCode,
        decide (ln = regionEntry)⟩]
    else [])
  else
    [⟨i.line, count,
      hasCode && (decide (count ≠ 0) || !decide (i.ignoreFrom ≠ i.ignoreTo)),
      decide (ln = regionEntry)⟩]

/-- Loop `while (lineNo < targetLine)` of `SourceReader::skipTo`
    (fuelled; `target - lineNo` fuel is exact).  Returns the new cursor and
    writer. -/
def skipLoop (lines : List LineInfo) (target count : Nat) (hasCode : Bool)
    (regionEntry : Nat) : Nat → Nat → Nat → Writer → Nat × Nat × Writer
  | 0, lineNo, colPos, w => (lineNo, colPos, w)
  | fuel + 1, lineNo, colPos, w =>
    if lineNo < target then
      if lineNo < lines.length then
        let i := lines.getD lineNo default
        let ln := lineNo + 1
        if ln < target then
          skipLoop lines target count hasCode regionEntry fuel ln 0
            (finishLine ln (addParts (lineParts i count hasCode regionEntry ln) w))
        else (ln, 0, w)
      else (lineNo, colPos, w)
    else (lineNo, colPos, w)

/-- The line-advancing half of `SourceReader::skipTo`: when the target line
    is ahead, close out the remainder of the current line under the
    previous event's state, complete it, and run the skip loop.  Cursor
    accesses use the wrapped `unsigned` index `lineNo - 1`; `none` models
    an out-of-bounds access into the line buffer. -/
def skipToStep1 (lines : List LineInfo) (target count : Nat) (hasCode : Bool)
    (regionEntry : Nat) (lineNo colPos : Nat) (w : Writer) :
    Option (Nat × Nat × Writer) :=
  if target > lineNo then
    if lineNo ≠ 0 then
      match lines.get? (usub1 lineNo) with
      | none => none
      | some li =>
        if colPos < li.line.length then
          some (skipLoop lines target count hasCode regionEntry (target - lineNo)
            lineNo colPos (finishLine lineNo
              (addData (getSubstr li.line colPos UMAX) count
                (hasCode && (decide (count ≠ 0) ||
                  !(decide (li.ignoreFrom ≤ colPos) && decide (colPos < li.ignoreTo))))
                (decide (lineNo = regionEntry)) w)))
        else
          some (skipLoop lines target count hasCode regionEntry (target - lineNo)
            lineNo colPos (finishLine lineNo w))
    else
      some (skipLoop lines target count hasCode regionEntry (target - lineNo)
        lineNo colPos w)
  else some (lineNo, colPos, w)

/-- The column-splitting half of `SourceReader::skipTo`: emit the text
    between the old and the new column of the (still open) target line
    under the previous event's state, clamped by `getSubstr`. -/
def skipToCol (lines : List LineInfo) (col count : Nat) (hasCode : Bool)
    (regionEntry : Nat) (st : Nat × Nat × Writer) : Option (Nat × Nat × Writer) :=
  if col > st.2.1 + 1 then
    match lines.get? (usub1 st.1) with
    | none => none
    | some li =>
      some (st.1, col - 1,
        addData (getSubstr li.line st.2.1 ((col - 1) - st.2.1)) count
          (hasCode && (decide (count ≠ 0) ||
            !(decide (li.ignoreFrom ≤ st.2.1) && decide (st.2.1 < li.ignoreTo))))
          (decide (st.1 = regionEntry)) st.2.2)
  else some st

/-- Method `SourceReader::skipTo`: the line-advancing half followed by the
    column-splitting half. -/
def skipTo (lines : List LineInfo) (target col count : Nat) (hasCode : Bool)
    (regionEntry : Nat) (lineNo colPos : Nat) (w : Writer) :
    Option (Nat × Nat × Writer) :=
  match skipToStep1 lines target count hasCode regionEntry lineNo colPos w with
  | none => none
  | some st => skipToCol lines col count hasCode regionEntry st

/-- The final loop of `SourceReader::flush` (fuelled; the fuel supplied at
    the call site exceeds the iteration count).  The loop runs while
    `lineNo <= lines.size()` and reads `lines[lineNo - 1]` with a wrapped
    `unsigned` index; `none` models an out-of-bounds read. -/
def flushLoop (lines : List LineInfo) : Nat → Nat → Writer → Option Writer
  | 0, _, w => some w
  | fuel + 1, lineNo, w =>
    if lineNo ≤ lines.length then
      match lines.get? (usub1 lineNo) with
      | none => none
      | some li =>
        flushLoop lines fuel (lineNo + 1)
          (finishLine lineNo (addData li.line 0 false false w))
    else some w

/-- Method `SourceReader::flush`: close the current line with a zero-count,
    non-code fragment of its remaining text (`substr(colPos)` throws when
    `colPos` exceeds the line length, modelled as `none`), then complete
    every remaining line. -/
def flush (lines : List LineInfo) (lineNo colPos : Nat) (w : Writer) :
    Option Writer :=
  if lineNo ≠ 0 then
    match lines.get? (usub1 lineNo) with
    | none => none
    | some li =>
      if colPos ≤ li.line.length then
        flushLoop lines (lines.length + 2 - lineNo) (lineNo + 1)
          (finishLine lineNo (addData (li.line.drop colPos) 0 false false w))
      else none
  else flushLoop lines (lines.length + 2) lineNo w

/-- One coverage segment of `CoverageData`, as consumed by `processCode`. -/
structure CovEvent where
  line : Nat
  col : Nat
  count : Nat
  hasCount : Bool
  isGapRegion : Bool
  isRegionEntry : Bool
deriving Repr, DecidableEq

/-- The event loop of `processCode`: each segment first flushes the text up
    to its position under the previous segment's state, then becomes the
    new state (`hasCode = HasCount && !IsGapRegion`, region-entry line). -/
def processEvents (lines : List LineInfo) :
    List CovEvent → Nat → Bool → Nat → Nat → Nat → Writer →
    Option (Nat × Nat × Writer)
  | [], _, _, _, lineNo, colPos, w => some (lineNo, colPos, w)
  | e :: es, count, hasCode, regionEntry, lineNo, colPos, w =>
    match skipTo lines e.line e.col count hasCode regionEntry lineNo colPos w with
    | none => none
    | some (ln1, cp1, w1) =>
      processEvents lines es e.count (e.hasCount && !e.isGapRegion)
        (if e.isRegionEntry then e.line else 0) ln1 cp1 w1

/-- A fresh `SourceWriter` sharing the per-file hit/miss lists accumulated
    by earlier runs (`coverageList[fileName]`). -/
def initWriter (hits misses : List Nat) : Writer := ⟨[], 0, 0, hits, misses, []⟩

/-- Function `processCode`: build the reader from the source text, run every
    coverage event through `skipTo`, then `flush`. -/
def processCode (source : List (List Char)) (events : List CovEvent)
    (extraIgnore : List (List Char)) (hits misses : List Nat) : Option Writer :=
  let lines := mkLines source extraIgnore
  match processEvents lines events 0 false 0 0 0 (initWriter hits misses) with
  | none => none
  | some (ln1, cp1, w1) => flush lines ln1 cp1 w1

/-- The one-line source `"return 1;\n"` of the C1 scenario. -/
def c1source : List (List Char) := ["return 1;".data]

/-- The single coverage event `(line=1, col=1, count=5, hasCount, not a
    gap)` of the C1 scenario. -/
def c1events : List CovEvent := [⟨1, 1, 5, true, false, false⟩]

/-- Claim C1, counterexample: on `"return 1;"` with the single event
    `(1,1,5,hasCount,¬gap)` followed by end-of-stream, `flush` emits the
    line with count 0 and `hasCode = false`, so the run yields
    `hitLines = 0` and `executableLines = 0` (and percentage 0), not the
    claimed `(1, 1)` with percentage 1000. -/
theorem c1_counterexample :
    (processCode c1source c1events [] [] []).map
      (fun w => (w.hitLines, w.executableLines)) = some (0, 0) ∧
    computePerc 0 0 = 0 ∧ ((0, 0) : Nat × Nat) ≠ (1, 1) :=
  ⟨by decide, by decide, by decide⟩

/-- Claim C1, amended: the fragment carrying the event's state is only emitted
    when a following event closes it.  With a closing event at
    `(line=1, col=10)` before end-of-stream the scenario behaves as
    claimed: one executable, hit line and `computePerc 1 1 = 1000`. -/
theorem c1_amended :
    (processCode c1source (c1events ++ [⟨1, 10, 0, false, false, false⟩])
      [] [] []).map (fun w => (w.hitLines, w.executableLines)) = some (1, 1) ∧
    computePerc 1 1 = 1000 :=
  ⟨by decide, by decide⟩

/-- The two-character source of the C2 scenario. -/
def c2source : List (List Char) := ["ab".data]

/-- Events producing, on line 1, a non-trivial code fragment with count 0
    (`"a"`) and a non-trivial gap fragment with count 7 (`"b"`). -/
def c2events : List CovEvent :=
  [⟨1, 1, 0, true, false, false⟩, ⟨1, 2, 7, true, true, false⟩,
    ⟨1, 3, 0, true, false, false⟩]

/-- Claim C2, counterexample: `hitCandidates` ignores `hasCode`, so a line can be
    counted hit although no fragment with `hasCode = true` has a nonzero
    count: here `hitLines = 1` while every completed fragment fails
    `hasCode ∧ count ≠ 0 ∧ non-trivial`. -/
theorem c2_counterexample :
    (processCode c2source c2events [] [] []).map
      (fun w => (w.hitLines, w.trace.all fun e => e.2.all fun p =>
        !(p.hasCode && decide (p.count ≠ 0) && !isTrivialCode p.str)))
      = some (1, true) := by
  decide

/-- The three-line source of the C3 scenario: the `LCOV_EXCL_LINE` marker
    on line 2 widens line 1's exclusion span to the partial span `[11,12)`
    (its trailing semicolon). -/
def c3source : List (List Char) :=
  ["int a = f();".data, "g(); // LCOV_EXCL_LINE".data, "x".data]

/-- A single event on line 3, so lines 1 and 2 are fully skipped. -/
def c3events : List CovEvent := [⟨3, 1, 0, true, false, false⟩]

/-- Claim C3, counterexample: the fully-skipped line 1 carries a partial
    exclusion span and is completed with two fragments
    (`"int a = f()"` and `";"`), not with exactly one fragment covering its
    entire text. -/
theorem c3_counterexample :
    (processCode c3source c3events [] [] []).map
      (fun w => w.trace.map fun e => (e.1, e.2.length))
      = some [(1, 2), (2, 1), (3, 1)] ∧ (2 : Nat) ≠ 1 :=
  ⟨by decide, by decide⟩

/-- The one-line source of the C4 scenario. -/
def c4source : List (List Char) := ["abc".data]

/-- Desynced events on lines 2, 3 and 4 of a one-line file: the reader gets
    stuck at line 1 and completes it repeatedly. -/
def c4events : List CovEvent :=
  [⟨2, 1, 5, true, false, false⟩, ⟨3, 1, 0, true, false, false⟩,
    ⟨4, 1, 0, true, false, false⟩]

/-- Claim C4, counterexample: with events beyond the end of the source buffer the
    same line is completed twice with code fragments, once hit and once
    missed: line 1 ends up in both the hit list and the miss list, so the
    two lists are not disjoint and line 1 appears in both. -/
theorem c4_counterexample :
    (processCode c4source c4events [] [] []).map
      (fun w => (w.hits, w.misses)) = some ([1], [1]) ∧
    ¬ ([1] : List Nat).Disjoint [1] :=
  ⟨by decide, by simp [List.Disjoint]⟩

/-- Claim C7, counterexample: an event referencing line 1, column 2 of an empty
    source buffer makes `skipTo` read `lines[lineNo - 1]` with `lineNo = 0`
    — the wrapped unsigned index `2^32 - 1`, out of bounds — so `skipTo`
    does fail on an event whose line is beyond the buffer. -/
theorem c7_counterexample :
    skipTo (mkLines [] []) 1 2 0 false 0 0 0 (initWriter [] []) = none := by
  decide

/-- Claim C10: with an empty event stream `flush` runs with `lineNo = 0` and its
    final loop reads `lines[lineNo - 1]` — the wrapped unsigned index
    `2^32 - 1` — out of bounds on the very first iteration, modelled here
    as `none`, instead of completing the source lines. -/
theorem c10_flush_oob :
    processCode ["a".data] [] [] [] [] = none ∧
    flush (mkLines ["a".data] []) 0 0 (initWriter [] []) = none :=
  ⟨by decide, by decide⟩

/-- Claim C2, amended: a completed line is counted executable iff some
    non-trivial fragment has `hasCode = true`; but it is counted hit iff,
    in addition, some non-trivial fragment — code or not — has a nonzero
    count: `hitCandidates` counts non-trivial fragments with nonzero count
    regardless of their `hasCode` flag. -/
theorem c2_amended (n : Nat) (w : Writer) :
    (0 < candidatesOf w.parts ↔
      ∃ p ∈ w.parts, p.hasCode = true ∧ isTrivialCode p.str = false) ∧
    (0 < hitCandidatesOf w.parts ↔
      ∃ p ∈ w.parts, p.count ≠ 0 ∧ isTrivialCode p.str = false) ∧
    ((finishLine n w).executableLines = w.executableLines + 1 ↔
      0 < candidatesOf w.parts) ∧
    ((finishLine n w).hitLines = w.hitLines + 1 ↔
      0 < candidatesOf w.parts ∧ 0 < hitCandidatesOf w.parts) := by
  refine ⟨?_, ?_, ?_, ?_⟩
  · unfold candidatesOf
    rw [List.countP_pos_iff]
    simp [Bool.and_eq_true, Bool.not_eq_true']
  · unfold hitCandidatesOf
    rw [List.countP_pos_iff]
    simp [Bool.and_eq_true, Bool.not_eq_true']
  · show w.executableLines + (if candidatesOf w.parts ≠ 0 then 1 else 0) =
      w.executableLines + 1 ↔ 0 < candidatesOf w.parts
    by_cases h : candidatesOf w.parts ≠ 0 <;> simp [h] <;> omega
  · show w.hitLines +
      (if candidatesOf w.parts ≠ 0 ∧ hitCandidatesOf w.parts ≠ 0 then 1 else 0) =
      w.hitLines + 1 ↔ 0 < candidatesOf w.parts ∧ 0 < hitCandidatesOf w.parts
    by_cases h : candidatesOf w.parts ≠ 0 ∧ hitCandidatesOf w.parts ≠ 0 <;>
      simp [h] <;> omega

theorem getD_set_self {α : Type} [Inhabited α] (l : List α) (n : Nat) (a : α)
    (h : n < l.length) : (l.set n a).getD n default = a := by
  simp [List.getD_eq_getElem?_getD, List.getElem?_set_self h]

theorem getD_set_ne {α : Type} [Inhabited α] (l : List α) (m n : Nat) (a : α)
    (h : m ≠ n) : (l.set m a).getD n default = l.getD n default := by
  simp [List.getD_eq_getElem?_getD, List.getElem?_set_ne h]

theorem length_dropWhile_le {α : Type} (p : α → Bool) (l : List α) :
    (l.dropWhile p).length ≤ l.length := by
  induction l with
  | nil => simp
  | cons a t ih =>
    by_cases h : p a <;> simp [List.dropWhile_cons, h] <;> omega

theorem trailingStop_le (l : List Char) : trailingStop l ≤ l.length := by
  have h := length_dropWhile_le isTrailTrim l.reverse
  simpa [trailingStop] using h

theorem backLoop_succ (lines : List LineInfo) (q : Nat) :
    backLoop lines (q + 1) =
      (if (backAdjust (lines.getD q default)).2 then
        lines.set q (backAdjust (lines.getD q default)).1
      else backLoop (lines.set q (backAdjust (lines.getD q default)).1) q) :=
  rfl

theorem backAdjust_break (i : LineInfo) (hs : 0 < trailingStop i.line) :
    (backAdjust i).2 = true := by
  show decide (0 < trailingStop i.line) = true
  exact decide_eq_true hs

theorem backAdjust_continue (i : LineInfo) (h0 : trailingStop i.line = 0) :
    (backAdjust i).2 = false := by
  show decide (0 < trailingStop i.line) = false
  rw [h0]
  rfl

theorem backAdjust_widen (i : LineInfo) (hs : 0 < trailingStop i.line)
    (hsemi : i.line.getD (trailingStop i.line - 1) ' ' = ';')
    (hspan : i.ignoreFrom = i.ignoreTo) :
    (backAdjust i).1 =
      { line := i.line, ignoreFrom := trailingStop i.line - 1,
        ignoreTo := i.line.length } := by
  have hlt : trailingStop i.line - 1 < i.line.length := by
    have := trailingStop_le i.line
    omega
  simp only [backAdjust]
  rw [if_pos (show 0 < trailingStop i.line ∧
      i.line.getD (trailingStop i.line - 1) ' ' = ';' from ⟨hs, hsemi⟩),
    if_pos hlt, if_neg (fun hne => hne hspan)]

/-- Claim C8: the backward widening pass.  If line `k` is individually excluded,
    every line strictly between `p` and `k` has empty trailing content
    (after trimming whitespace and braces), and line `p` ends — before its
    trimmed tail — in a semicolon after non-trivial content and has no
    prior exclusion span, then the pass widens line `p`'s span to start at
    that semicolon and run to the end of the line. -/
theorem c8_widening (lines : List LineInfo) (k p : Nat)
    (hp : p < k) (hk : k ≤ lines.length)
    (hmid : ∀ j, j < k → p < j → trailingStop (lines.getD j default).line = 0)
    (hs : 0 < trailingStop (lines.getD p default).line)
    (hsemi : (lines.getD p default).line.getD
      (trailingStop (lines.getD p default).line - 1) ' ' = ';')
    (hspan : (lines.getD p default).ignoreFrom = (lines.getD p default).ignoreTo) :
    (backLoop lines k).getD p default =
      { line := (lines.getD p default).line,
        ignoreFrom := trailingStop (lines.getD p default).line - 1,
        ignoreTo := (lines.getD p default).line.length } := by
  induction k generalizing lines with
  | zero => omega
  | succ q ih =>
    have hql : q < lines.length := by omega
    rcases Nat.lt_or_ge p q with hpq | hpq
    · -- an intermediate line: empty trailing content, the loop continues
      have h0 : trailingStop (lines.getD q default).line = 0 :=
        hmid q (by omega) hpq
      rw [backLoop_succ, backAdjust_continue _ h0]
      simp only [Bool.false_eq_true, if_false]
      have hne : q ≠ p := by omega
      rw [ih (lines.set q (backAdjust (lines.getD q default)).1) hpq
        (by rw [List.length_set]; omega)
        (by intro j hj1 hj2
            rw [getD_set_ne _ _ _ _ (by omega : q ≠ j)]
            exact hmid j (by omega) hj2)
        (by rw [getD_set_ne _ _ _ _ hne]; exact hs)
        (by rw [getD_set_ne _ _ _ _ hne]; exact hsemi)
        (by rw [getD_set_ne _ _ _ _ hne]; exact hspan)]
      rw [getD_set_ne _ _ _ _ hne]
    · -- the boundary line `p` itself: widen and stop
      have hqp : q = p := by omega
      subst hqp
      rw [backLoop_succ, backAdjust_break _ hs]
      simp only [if_true]
      rw [getD_set_self _ _ _ hql]
      exact backAdjust_widen _ hs hsemi hspan

/-- The concrete input of the C8 witness: line 2 is individually excluded,
    line 1 is all closing brace, line 0 ends in a semicolon. -/
def c8lines : List LineInfo :=
  [⟨"int a = f();".data, 0, 0⟩, ⟨"\x7d".data, 0, 0⟩, ⟨"g(); // MARK".data, 0, 13⟩]

/-- Claim C8 witness: applying the widening theorem at `c8lines`, `k = 2`,
    `p = 0` widens line 0's span to `[11, 12)` — starting at its trailing
    semicolon and running to the end of the line. -/
theorem c8_witness :
    (∀ j, j < 2 → 0 < j → trailingStop ((c8lines.getD j default).line) = 0) ∧
    (backLoop c8lines 2).getD 0 default =
      { line := "int a = f();".data, ignoreFrom := 11, ignoreTo := 12 } :=
  ⟨by decide, by
    have h := c8_widening c8lines 2 0 (by decide) (by decide) (by decide)
      (by decide) (by decide) (by decide)
    rw [h]
    decide⟩

/-- Function `getSubstr` is exactly clamped take-after-drop. -/
theorem getSubstr_eq (s : List Char) (f n : Nat) :
    getSubstr s f n = (s.drop f).take n := by
  unfold getSubstr
  by_cases h1 : s.length ≤ f
  · rw [if_pos h1, List.drop_eq_nil_of_le h1, List.take_nil]
  · rw [if_neg h1]
    by_cases h2 : s.length - f ≤ n
    · rw [if_pos h2]
      have hlen : (s.drop f).length ≤ n := by
        rw [List.length_drop]; omega
      rw [List.take_of_length_le hlen]
    · rw [if_neg h2]

/-- A fully-skipped line with an empty exclusion span is synthesized as one
    fragment covering the entire line, with the previous event's state. -/
theorem lineParts_noSpan (i : LineInfo) (cnt : Nat) (h : Bool) (r k : Nat)
    (hspan : i.ignoreFrom = i.ignoreTo) :
    lineParts i cnt h r k = [⟨i.line, cnt, h, decide (k = r)⟩] := by
  unfold lineParts
  rw [if_neg (by simp [hspan])]
  simp [hspan]

/-- A fully-excluded skipped line (provisional span `[0, length+1)`) is
    synthesized as one full-line fragment whose `hasCode` is suppressed
    unless the count is nonzero. -/
theorem lineParts_fullSpan (i : LineInfo) (cnt : Nat) (h : Bool) (r k : Nat)
    (hfrom : i.ignoreFrom = 0) (hto : i.ignoreTo = i.line.length + 1) :
    lineParts i cnt h r k =
      [⟨i.line, cnt, h && decide (cnt ≠ 0), decide (k = r)⟩] := by
  unfold lineParts
  rw [if_pos (by constructor <;> omega)]
  rw [if_neg (by omega), if_neg (by omega)]
  rw [getSubstr_eq, hfrom, hto]
  simp [List.take_of_length_le (by omega : i.line.length ≤ i.line.length + 1 - 0)]

/-- The texts of the fragments synthesized for a skipped line concatenate
    to the entire line, whatever the exclusion span. -/
theorem lineParts_flatten (i : LineInfo) (cnt : Nat) (h : Bool) (r k : Nat)
    (hle : i.ignoreFrom ≤ i.ignoreTo) :
    ((lineParts i cnt h r k).map Part.str).flatten = i.line := by
  unfold lineParts
  by_cases hcond : i.ignoreFrom ≠ i.ignoreTo ∧
      (i.ignoreFrom ≠ 0 ∨ i.ignoreTo ≠ i.line.length)
  · rw [if_pos hcond]
    have hseg : i.line.take i.ignoreFrom ++
        (i.line.drop i.ignoreFrom).take (i.ignoreTo - i.ignoreFrom) =
        i.line.take i.ignoreTo := by
      rw [← List.take_add]
      congr 1
      omega
    have hthird : (i.line.drop i.ignoreTo).take i.line.length =
        i.line.drop i.ignoreTo := by
      apply List.take_of_length_le
      rw [List.length_drop]
      omega
    by_cases h1 : i.ignoreFrom = 0
    · rcases Nat.lt_or_ge i.ignoreTo i.line.length with h2 | h2
      · rw [if_neg (show ¬ i.ignoreFrom ≠ 0 by omega), if_pos h2]
        simp only [List.nil_append, List.map_append, List.map_cons,
          List.map_nil, List.flatten_append, List.flatten_cons,
          List.flatten_nil, List.append_nil, getSubstr_eq, h1,
          List.drop_zero, Nat.sub_zero]
        rw [hthird, List.take_append_drop]
      · rw [if_neg (show ¬ i.ignoreFrom ≠ 0 by omega),
          if_neg (by omega : ¬ i.ignoreTo < i.line.length)]
        simp only [List.nil_append, List.map_cons, List.map_nil,
          List.flatten_cons, List.flatten_nil, List.append_nil,
          getSubstr_eq, h1, List.drop_zero, Nat.sub_zero]
        exact List.take_of_length_le (by omega)
    · rcases Nat.lt_or_ge i.ignoreTo i.line.length with h2 | h2
      · rw [if_pos (show i.ignoreFrom ≠ 0 from h1), if_pos h2]
        simp only [List.map_append, List.map_cons, List.map_nil,
          List.flatten_append, List.flatten_cons, List.flatten_nil,
          List.append_nil, getSubstr_eq, List.drop_zero, List.append_assoc]
        rw [← List.append_assoc, hseg, hthird, List.take_append_drop]
      · rw [if_pos (show i.ignoreFrom ≠ 0 from h1),
          if_neg (by omega : ¬ i.ignoreTo < i.line.length)]
        simp only [List.map_append, List.map_cons, List.map_nil,
          List.flatten_append, List.flatten_cons, List.flatten_nil,
          List.append_nil, getSubstr_eq, List.drop_zero]
        rw [hseg, List.take_of_length_le (by omega)]
  · rw [if_neg hcond]
    simp

theorem skipLoop_succ (lines : List LineInfo) (target count : Nat) (hc : Bool)
    (re fuel ln cp : Nat) (w : Writer) :
    skipLoop lines target count hc re (fuel + 1) ln cp w =
      if ln < target then
        if ln < lines.length then
          (if ln + 1 < target then
            skipLoop lines target count hc re fuel (ln + 1) 0
              (finishLine (ln + 1)
                (addParts (lineParts (lines.getD ln default) count hc re (ln + 1)) w))
          else (ln + 1, 0, w))
        else (ln, cp, w)
      else (ln, cp, w) :=
  rfl

/-- The trace grown by the skip loop: every fully-skipped line `k` with
    `ln < k < target` (clamped to the buffer) is completed exactly once, in
    order, with exactly the fragments `lineParts` synthesizes for it. -/
theorem skipLoop_trace (lines : List LineInfo) (target count : Nat) (hc : Bool)
    (re : Nat) :
    ∀ fuel ln cp w, w.parts = [] → target ≤ ln + fuel →
      (skipLoop lines target count hc re fuel ln cp w).2.2.trace =
        w.trace ++ (List.range' (ln + 1) (min (target - 1) lines.length - ln)).map
          (fun k => (k, lineParts (lines.getD (k - 1) default) count hc re k)) := by
  intro fuel
  induction fuel with
  | zero =>
    intro ln cp w hw hfuel
    have hz : min (target - 1) lines.length - ln = 0 := by omega
    rw [hz]
    simp [skipLoop]
  | succ fuel ih =>
    intro ln cp w hw hfuel
    by_cases h1 : ln < target
    · by_cases h2 : ln < lines.length
      · by_cases h3 : ln + 1 < target
        · rw [skipLoop_succ, if_pos h1, if_pos h2, if_pos h3]
          rw [ih (ln + 1) 0 _ rfl (by omega)]
          have htr : (finishLine (ln + 1)
              (addParts (lineParts (lines.getD ln default) count hc re (ln + 1)) w)).trace =
              w.trace ++ [(ln + 1, lineParts (lines.getD ln default) count hc re (ln + 1))] := by
            show w.trace ++ [(ln + 1,
              w.parts ++ lineParts (lines.getD ln default) count hc re (ln + 1))] = _
            rw [hw, List.nil_append]
          rw [htr]
          have hm : min (target - 1) lines.length - ln =
              (min (target - 1) lines.length - (ln + 1)) + 1 := by omega
          rw [hm, List.range'_succ, List.map_cons]
          have hk : ln + 1 - 1 = ln := by omega
          rw [List.append_assoc, List.singleton_append, hk]
        · rw [skipLoop_succ, if_pos h1, if_pos h2, if_neg h3]
          have hz : min (target - 1) lines.length - ln = 0 := by omega
          rw [hz]
          simp
      · rw [skipLoop_succ, if_pos h1, if_neg h2]
        have hz : min (target - 1) lines.length - ln = 0 := by omega
        rw [hz]
        simp
    · rw [skipLoop_succ, if_neg h1]
      have hz : min (target - 1) lines.length - ln = 0 := by omega
      rw [hz]
      simp

/-- Claim C3, amended: on an event for `target > lineNo`, every fully-skipped
    line strictly between the old cursor and `target` (and within the
    buffer) is completed exactly once with the fragments `lineParts`
    synthesizes for it — the target line itself is never among them; a
    skipped line with an empty exclusion span gets exactly one fragment
    covering its whole text with the previous event's state; a fully
    excluded line gets one full-text fragment with `hasCode` suppressed
    unless the count is nonzero; a line with a partial span is split into
    two or three fragments whose texts still concatenate to the entire
    line. -/
theorem c3_amended (lines : List LineInfo) (target count : Nat) (hc : Bool)
    (re ln cp : Nat) (w : Writer) (hw : w.parts = []) :
    ((skipLoop lines target count hc re (target - ln) ln cp w).2.2.trace =
      w.trace ++ (List.range' (ln + 1) (min (target - 1) lines.length - ln)).map
        (fun k => (k, lineParts (lines.getD (k - 1) default) count hc re k))) ∧
    (∀ i : LineInfo, i.ignoreFrom = i.ignoreTo → ∀ cnt h r k,
      lineParts i cnt h r k = [⟨i.line, cnt, h, decide (k = r)⟩]) ∧
    (∀ i : LineInfo, i.ignoreFrom = 0 → i.ignoreTo = i.line.length + 1 →
      ∀ cnt h r k, lineParts i cnt h r k =
        [⟨i.line, cnt, h && decide (cnt ≠ 0), decide (k = r)⟩]) ∧
    (∀ i : LineInfo, i.ignoreFrom ≤ i.ignoreTo → ∀ cnt h r k,
      ((lineParts i cnt h r k).map Part.str).flatten = i.line) := by
  refine ⟨skipLoop_trace lines target count hc re (target - ln) ln cp w hw
      (by omega), ?_, ?_, ?_⟩
  · intro i hspan cnt h r k
    exact lineParts_noSpan i cnt h r k hspan
  · intro i hfrom hto cnt h r k
    exact lineParts_fullSpan i cnt h r k hfrom hto
  · intro i hle cnt h r k
    exact lineParts_flatten i cnt h r k hle

/-- Claim C3 witness: the amended statement instantiated on the concrete C3
    scenario (three-line source, event on line 3, cursor at the origin). -/
theorem c3_witness :
    (initWriter [] []).parts = [] ∧
    (skipLoop (mkLines c3source []) 3 0 false 0 3 0 0
        (initWriter [] [])).2.2.trace =
      (initWriter [] []).trace ++
        (List.range' 1 (min 2 (mkLines c3source []).length - 0)).map
          (fun k => (k, lineParts ((mkLines c3source []).getD (k - 1) default)
            0 false 0 k)) :=
  ⟨rfl, (c3_amended (mkLines c3source []) 3 0 false 0 0 0
    (initWriter [] []) rfl).1⟩

/-- The size half of the partition invariant: the executable-line counter
    equals the total size of the hit and miss lists, and the hit-line
    counter equals the size of the hit list. -/
def SizeInv (w : Writer) : Prop :=
  w.executableLines = w.hits.length + w.misses.length ∧
  w.hitLines = w.hits.length

theorem sizeInv_addData (s : List Char) (c : Nat) (h r : Bool) (w : Writer)
    (hw : SizeInv w) : SizeInv (addData s c h r w) := hw

theorem sizeInv_addParts (ps : List Part) (w : Writer) (hw : SizeInv w) :
    SizeInv (addParts ps w) := hw

theorem sizeInv_finishLine (n : Nat) (w : Writer) (hw : SizeInv w) :
    SizeInv (finishLine n w) := by
  obtain ⟨h1, h2⟩ := hw
  unfold SizeInv finishLine
  by_cases hc : candidatesOf w.parts = 0
  · simp [hc]
    omega
  · by_cases hh : hitCandidatesOf w.parts = 0
    · simp [hc, hh]
      omega
    · simp [hc, hh]
      omega

theorem sizeInv_skipLoop (lines : List LineInfo) (target count : Nat)
    (hcode : Bool) (re : Nat) :
    ∀ fuel ln cp w, SizeInv w →
      SizeInv (skipLoop lines target count hcode re fuel ln cp w).2.2 := by
  intro fuel
  induction fuel with
  | zero => intro ln cp w hw; exact hw
  | succ fuel ih =>
    intro ln cp w hw
    rw [skipLoop_succ]
    by_cases h1 : ln < target
    · by_cases h2 : ln < lines.length
      · by_cases h3 : ln + 1 < target
        · rw [if_pos h1, if_pos h2, if_pos h3]
          exact ih _ _ _ (sizeInv_finishLine _ _ (sizeInv_addParts _ _ hw))
        · rw [if_pos h1, if_pos h2, if_neg h3]
          exact hw
      · rw [if_pos h1, if_neg h2]
        exact hw
    · rw [if_neg h1]
      exact hw

theorem sizeInv_skipToStep1 (lines : List LineInfo) (target count : Nat)
    (hcode : Bool) (re lineNo colPos : Nat) (w : Writer) (st : Nat × Nat × Writer)
    (hres : skipToStep1 lines target count hcode re lineNo colPos w = some st)
    (hw : SizeInv w) : SizeInv st.2.2 := by
  unfold skipToStep1 at hres
  by_cases h1 : target > lineNo
  · rw [if_pos h1] at hres
    by_cases h2 : lineNo ≠ 0
    · rw [if_pos h2] at hres
      cases hget : lines.get? (usub1 lineNo) with
      | none =>
        rw [hget] at hres
        exact absurd hres (by simp)
      | some li =>
        rw [hget] at hres
        simp only [] at hres
        by_cases h3 : colPos < li.line.length
        · rw [if_pos h3] at hres
          simp only [Option.some.injEq] at hres
          subst hres
          exact sizeInv_skipLoop _ _ _ _ _ _ _ _ _
            (sizeInv_finishLine _ _ (sizeInv_addData _ _ _ _ _ hw))
        · rw [if_neg h3] at hres
          simp only [Option.some.injEq] at hres
          subst hres
          exact sizeInv_skipLoop _ _ _ _ _ _ _ _ _ (sizeInv_finishLine _ _ hw)
    · rw [if_neg h2] at hres
      simp only [Option.some.injEq] at hres
      subst hres
      exact sizeInv_skipLoop _ _ _ _ _ _ _ _ _ hw
  · rw [if_neg h1] at hres
    simp only [Option.some.injEq] at hres
    subst hres
    exact hw

theorem sizeInv_skipToCol (lines : List LineInfo) (col count : Nat)
    (hcode : Bool) (re : Nat) (st1 st : Nat × Nat × Writer)
    (hres : skipToCol lines col count hcode re st1 = some st)
    (hw : SizeInv st1.2.2) : SizeInv st.2.2 := by
  unfold skipToCol at hres
  by_cases h1 : col > st1.2.1 + 1
  · rw [if_pos h1] at hres
    cases hget : lines.get? (usub1 st1.1) with
    | none =>
      rw [hget] at hres
      exact absurd hres (by simp)
    | some li =>
      rw [hget] at hres
      simp only [Option.some.injEq] at hres
      subst hres
      exact sizeInv_addData _ _ _ _ _ hw
  · rw [if_neg h1] at hres
    simp only [Option.some.injEq] at hres
    subst hres
    exact hw

theorem sizeInv_skipTo (lines : List LineInfo) (target col count : Nat)
    (hcode : Bool) (re lineNo colPos : Nat) (w : Writer) (st : Nat × Nat × Writer)
    (hres : skipTo lines target col count hcode re lineNo colPos w = some st)
    (hw : SizeInv w) : SizeInv st.2.2 := by
  unfold skipTo at hres
  cases hstep : skipToStep1 lines target count hcode re lineNo colPos w with
  | none =>
    rw [hstep] at hres
    exact absurd hres (by simp)
  | some st1 =>
    rw [hstep] at hres
    exact sizeInv_skipToCol _ _ _ _ _ _ _ hres
      (sizeInv_skipToStep1 _ _ _ _ _ _ _ _ _ hstep hw)

theorem sizeInv_processEvents (lines : List LineInfo) :
    ∀ (evs : List CovEvent) count hcode re lineNo colPos (w : Writer) st,
      processEvents lines evs count hcode re lineNo colPos w = some st →
      SizeInv w → SizeInv st.2.2 := by
  intro evs
  induction evs with
  | nil =>
    intro count hcode re lineNo colPos w st hres hw
    simp only [processEvents, Option.some.injEq] at hres
    subst hres
    exact hw
  | cons e es ih =>
    intro count hcode re lineNo colPos w st hres hw
    unfold processEvents at hres
    cases hskip : skipTo lines e.line e.col count hcode re lineNo colPos w with
    | none =>
      rw [hskip] at hres
      exact absurd hres (by simp)
    | some st1 =>
      rw [hskip] at hres
      exact ih _ _ _ _ _ _ _ hres
        (sizeInv_skipTo _ _ _ _ _ _ _ _ _ _ hskip hw)

theorem sizeInv_flushLoop (lines : List LineInfo) :
    ∀ fuel lineNo (w w' : Writer), flushLoop lines fuel lineNo w = some w' →
      SizeInv w → SizeInv w' := by
  intro fuel
  induction fuel with
  | zero =>
    intro lineNo w w' hres hw
    simp only [flushLoop, Option.some.injEq] at hres
    subst hres
    exact hw
  | succ fuel ih =>
    intro lineNo w w' hres hw
    unfold flushLoop at hres
    by_cases h1 : lineNo ≤ lines.length
    · rw [if_pos h1] at hres
      cases hget : lines.get? (usub1 lineNo) with
      | none =>
        rw [hget] at hres
        exact absurd hres (by simp)
      | some li =>
        rw [hget] at hres
        exact ih _ _ _ hres
          (sizeInv_finishLine _ _ (sizeInv_addData _ _ _ _ _ hw))
    · rw [if_neg h1] at hres
      simp only [Option.some.injEq] at hres
      subst hres
      exact hw

theorem sizeInv_flush (lines : List LineInfo) (lineNo colPos : Nat)
    (w w' : Writer) (hres : flush lines lineNo colPos w = some w')
    (hw : SizeInv w) : SizeInv w' := by
  unfold flush at hres
  by_cases h1 : lineNo ≠ 0
  · rw [if_pos h1] at hres
    cases hget : lines.get? (usub1 lineNo) with
    | none =>
      rw [hget] at hres
      exact absurd hres (by simp)
    | some li =>
      rw [hget] at hres
      simp only [] at hres
      by_cases h2 : colPos ≤ li.line.length
      · rw [if_pos h2] at hres
        exact sizeInv_flushLoop _ _ _ _ _ hres
          (sizeInv_finishLine _ _ (sizeInv_addData _ _ _ _ _ hw))
      · rw [if_neg h2] at hres
        exact absurd hres (by simp)
  · rw [if_neg h1] at hres
    exact sizeInv_flushLoop _ _ _ _ _ hres hw

theorem sizeInv_processCode (source : List (List Char)) (events : List CovEvent)
    (extra : List (List Char)) (w' : Writer)
    (hres : processCode source events extra [] [] = some w') : SizeInv w' := by
  unfold processCode at hres
  simp only [] at hres
  cases hev : processEvents (mkLines source extra) events 0 false 0 0 0
      (initWriter [] []) with
  | none =>
    rw [hev] at hres
    exact absurd hres (by simp)
  | some st =>
    obtain ⟨ln1, cp1, w1⟩ := st
    rw [hev] at hres
    simp only [] at hres
    exact sizeInv_flush _ _ _ _ _ hres
      (sizeInv_processEvents _ _ _ _ _ _ _ _ _ hev ⟨rfl, rfl⟩)

theorem markLines_length (extra : List (List Char)) :
    ∀ (src : List (List Char)) (block : Bool) (idx : Nat),
      (markLines extra src block idx).1.length = src.length := by
  intro src
  induction src with
  | nil => intro block idx; rfl
  | cons s rest ih =>
    intro block idx
    simp only [markLines, List.length_cons]
    rw [ih]

theorem backLoop_length : ∀ (lines : List LineInfo) (p : Nat),
    (backLoop lines p).length = lines.length := by
  intro lines p
  induction p generalizing lines with
  | zero => rfl
  | succ q ih =>
    rw [backLoop_succ]
    by_cases h : (backAdjust (lines.getD q default)).2
    · rw [if_pos h, List.length_set]
    · rw [if_neg h, ih, List.length_set]

theorem fwdLoop_length : ∀ (fuel : Nat) (lines : List LineInfo) (next : Nat),
    (fwdLoop fuel lines next).length = lines.length := by
  intro fuel
  induction fuel with
  | zero => intro lines next; rfl
  | succ fuel ih =>
    intro lines next
    show (if next < lines.length then _ else lines).length = _
    by_cases h1 : next < lines.length
    · rw [if_pos h1]
      by_cases h2 : leadingStop (lines.getD next default).line <
          (lines.getD next default).line.length
      · rw [if_pos h2, List.length_set]
      · rw [if_neg h2, ih, List.length_set]
    · rw [if_neg h1]

theorem applyIgnores_length : ∀ (igs : List Nat) (lines : List LineInfo),
    (applyIgnores lines igs).length = lines.length := by
  intro igs
  induction igs with
  | nil => intro lines; rfl
  | cons i rest ih =>
    intro lines
    have hstep : applyIgnores lines (i :: rest) =
        applyIgnores (fwdLoop lines.length (backLoop lines i) (i + 1)) rest := rfl
    rw [hstep, ih, fwdLoop_length, backLoop_length]

theorem mkLines_length (source extra : List (List Char)) :
    (mkLines source extra).length = source.length := by
  unfold mkLines
  rw [applyIgnores_length, markLines_length]

/-- The ordering half of the partition invariant: both line-number lists
    are strictly increasing, bounded by `b`, and mutually disjoint. -/
def BoundInv (w : Writer) (b : Nat) : Prop :=
  w.hits.Pairwise (· < ·) ∧ w.misses.Pairwise (· < ·) ∧
  (∀ x ∈ w.hits, x < b) ∧ (∀ x ∈ w.misses, x < b) ∧
  ∀ x ∈ w.hits, x ∉ w.misses

theorem boundInv_mono {w : Writer} {b b' : Nat} (hb : b ≤ b')
    (h : BoundInv w b) : BoundInv w b' := by
  obtain ⟨h1, h2, h3, h4, h5⟩ := h
  exact ⟨h1, h2, fun x hx => by have := h3 x hx; omega,
    fun x hx => by have := h4 x hx; omega, h5⟩

theorem boundInv_addData (s : List Char) (c : Nat) (h r : Bool) (w : Writer)
    {b : Nat} (hw : BoundInv w b) : BoundInv (addData s c h r w) b := hw

theorem boundInv_addParts (ps : List Part) (w : Writer) {b : Nat}
    (hw : BoundInv w b) : BoundInv (addParts ps w) b := hw

theorem pairwise_append_singleton {l : List Nat} {n : Nat}
    (hl : l.Pairwise (· < ·)) (hb : ∀ x ∈ l, x < n) :
    (l ++ [n]).Pairwise (· < ·) := by
  rw [List.pairwise_append]
  exact ⟨hl, List.pairwise_singleton _ _,
    fun a ha b hb2 => by rw [List.mem_singleton] at hb2; subst hb2; exact hb a ha⟩

/-- Completing line `n` pushes `n` onto at most one of the two lists; when every
    element of both lists is below `n`, the invariant survives with the new
    bound `n + 1`. -/
theorem boundInv_finishLine (n : Nat) (w : Writer) (hw : BoundInv w n) :
    BoundInv (finishLine n w) (n + 1) := by
  obtain ⟨hsh, hsm, hbh, hbm, hd⟩ := hw
  unfold BoundInv finishLine
  simp only
  by_cases hc : candidatesOf w.parts = 0
  · simp only [hc, ne_eq, not_true_eq_false, false_and, if_false,
      List.append_nil]
    exact ⟨hsh, hsm, fun x hx => by have := hbh x hx; omega,
      fun x hx => by have := hbm x hx; omega, hd⟩
  · by_cases hh : hitCandidatesOf w.parts = 0
    · simp only [hc, hh, ne_eq, not_false_eq_true, not_true_eq_false,
        and_false, and_true, if_false, if_true, List.append_nil]
      refine ⟨hsh, pairwise_append_singleton hsm hbm, ?_, ?_, ?_⟩
      · intro x hx
        have := hbh x hx
        omega
      · intro x hx
        rw [List.mem_append, List.mem_singleton] at hx
        rcases hx with hx | hx
        · have := hbm x hx; omega
        · omega
      · intro x hx hmem
        rw [List.mem_append, List.mem_singleton] at hmem
        rcases hmem with hmem | hmem
        · exact hd x hx hmem
        · subst hmem
          have := hbh x hx
          omega
    · simp only [hc, hh, ne_eq, not_false_eq_true, and_self, and_false,
        if_true, if_false, List.append_nil]
      refine ⟨pairwise_append_singleton hsh hbh, hsm, ?_, ?_, ?_⟩
      · intro x hx
        rw [List.mem_append, List.mem_singleton] at hx
        rcases hx with hx | hx
        · have := hbh x hx; omega
        · omega
      · intro x hx
        have := hbm x hx
        omega
      · intro x hx hmem
        rw [List.mem_append, List.mem_singleton] at hx
        rcases hx with hx | hx
        · exact hd x hx hmem
        · subst hx
          have := hbm x hmem
          omega

/-- The cursor produced by the skip loop: with enough fuel, the line
    cursor lands on the target clamped to the buffer, and the column is
    reset when at least one line was consumed. -/
theorem skipLoop_cursor (lines : List LineInfo) (target count : Nat)
    (hcode : Bool) (re : Nat) :
    ∀ fuel ln cp w, target ≤ ln + fuel →
      (skipLoop lines target count hcode re fuel ln cp w).1 =
        (if ln < target ∧ ln < lines.length then min target lines.length
          else ln) ∧
      (skipLoop lines target count hcode re fuel ln cp w).2.1 =
        (if ln < target ∧ ln < lines.length then 0 else cp) := by
  intro fuel
  induction fuel with
  | zero =>
    intro ln cp w hfuel
    constructor
    · show ln = _
      rw [if_neg (by omega)]
    · show cp = _
      rw [if_neg (by omega)]
  | succ fuel ih =>
    intro ln cp w hfuel
    rw [skipLoop_succ]
    by_cases h1 : ln < target
    · by_cases h2 : ln < lines.length
      · by_cases h3 : ln + 1 < target
        · rw [if_pos h1, if_pos h2, if_pos h3]
          obtain ⟨ihl, ihc⟩ := ih (ln + 1) 0 _ (by omega)
          constructor
          · rw [ihl]
            split_ifs <;> omega
          · rw [ihc]
            split_ifs <;> omega
        · rw [if_pos h1, if_pos h2, if_neg h3]
          constructor
          · show ln + 1 = _
            rw [if_pos ⟨h1, h2⟩]
            omega
          · show 0 = _
            rw [if_pos ⟨h1, h2⟩]
      · rw [if_pos h1, if_neg h2]
        constructor
        · show ln = _
          rw [if_neg (by omega)]
        · show cp = _
          rw [if_neg (by omega)]
    · rw [if_neg h1]
      constructor
      · show ln = _
        rw [if_neg (by omega)]
      · show cp = _
        rw [if_neg (by omega)]

/-- The invariant through the skip loop, when the target stays within the
    buffer: every completed line number is below the target. -/
theorem boundInv_skipLoop (lines : List LineInfo) (target count : Nat)
    (hcode : Bool) (re : Nat) :
    ∀ fuel ln cp w, target ≤ lines.length → ln < target →
      target ≤ ln + fuel → BoundInv w (ln + 1) →
      BoundInv (skipLoop lines target count hcode re fuel ln cp w).2.2 target := by
  intro fuel
  induction fuel with
  | zero =>
    intro ln cp w hT hln hfuel hw
    omega
  | succ fuel ih =>
    intro ln cp w hT hln hfuel hw
    rw [skipLoop_succ]
    have h2 : ln < lines.length := by omega
    rw [if_pos hln, if_pos h2]
    by_cases h3 : ln + 1 < target
    · rw [if_pos h3]
      exact ih (ln + 1) 0 _ hT h3 (by omega)
        (boundInv_finishLine (ln + 1) _ (boundInv_addParts _ _ hw))
    · rw [if_neg h3]
      have : target = ln + 1 := by omega
      rw [this]
      exact hw

theorem boundInv_skipToStep1 (lines : List LineInfo) (target count : Nat)
    (hcode : Bool) (re lineNo colPos : Nat) (w : Writer) (st : Nat × Nat × Writer)
    (hT : target ≤ lines.length)
    (hres : skipToStep1 lines target count hcode re lineNo colPos w = some st)
    (hw : BoundInv w lineNo) : BoundInv st.2.2 st.1 := by
  unfold skipToStep1 at hres
  by_cases h1 : target > lineNo
  · rw [if_pos h1] at hres
    by_cases h2 : lineNo = 0
    · rw [if_neg (by omega)] at hres
      simp only [Option.some.injEq] at hres
      subst hres
      obtain ⟨hcl, _⟩ := skipLoop_cursor lines target count hcode re
        (target - lineNo) lineNo colPos w (by omega)
      rw [hcl, if_pos ⟨h1, by omega⟩]
      have hmin : min target lines.length = target := by omega
      rw [hmin]
      exact boundInv_skipLoop lines target count hcode re (target - lineNo)
        lineNo colPos w hT h1 (by omega) (boundInv_mono (by omega) hw)
    · rw [if_pos (by omega)] at hres
      cases hget : lines.get? (usub1 lineNo) with
      | none =>
        rw [hget] at hres
        exact absurd hres (by simp)
      | some li =>
        rw [hget] at hres
        simp only [] at hres
        have hln2 : lineNo < lines.length := by omega
        by_cases h3 : colPos < li.line.length
        · rw [if_pos h3] at hres
          simp only [Option.some.injEq] at hres
          subst hres
          obtain ⟨hcl, _⟩ := skipLoop_cursor lines target count hcode re
            (target - lineNo) lineNo colPos _ (by omega)
          rw [hcl, if_pos ⟨h1, hln2⟩]
          have hmin : min target lines.length = target := by omega
          rw [hmin]
          exact boundInv_skipLoop lines target count hcode re (target - lineNo)
            lineNo colPos _ hT h1 (by omega)
            (boundInv_finishLine lineNo _ (boundInv_addData _ _ _ _ _ hw))
        · rw [if_neg h3] at hres
          simp only [Option.some.injEq] at hres
          subst hres
          obtain ⟨hcl, _⟩ := skipLoop_cursor lines target count hcode re
            (target - lineNo) lineNo colPos _ (by omega)
          rw [hcl, if_pos ⟨h1, hln2⟩]
          have hmin : min target lines.length = target := by omega
          rw [hmin]
          exact boundInv_skipLoop lines target count hcode re (target - lineNo)
            lineNo colPos _ hT h1 (by omega)
            (boundInv_finishLine lineNo _ hw)
  · rw [if_neg h1] at hres
    simp only [Option.some.injEq] at hres
    subst hres
    exact hw

theorem boundInv_skipToCol (lines : List LineInfo) (col count : Nat)
    (hcode : Bool) (re : Nat) (st1 st : Nat × Nat × Writer)
    (hres : skipToCol lines col count hcode re st1 = some st)
    (hw : BoundInv st1.2.2 st1.1) : BoundInv st.2.2 st.1 := by
  unfold skipToCol at hres
  by_cases h1 : col > st1.2.1 + 1
  · rw [if_pos h1] at hres
    cases hget : lines.get? (usub1 st1.1) with
    | none =>
      rw [hget] at hres
      exact absurd hres (by simp)
    | some li =>
      rw [hget] at hres
      simp only [Option.some.injEq] at hres
      subst hres
      exact boundInv_addData _ _ _ _ _ hw
  · rw [if_neg h1] at hres
    simp only [Option.some.injEq] at hres
    subst hres
    exact hw

theorem boundInv_skipTo (lines : List LineInfo) (target col count : Nat)
    (hcode : Bool) (re lineNo colPos : Nat) (w : Writer) (st : Nat × Nat × Writer)
    (hT : target ≤ lines.length)
    (hres : skipTo lines target col count hcode re lineNo colPos w = some st)
    (hw : BoundInv w lineNo) : BoundInv st.2.2 st.1 := by
  unfold skipTo at hres
  cases hstep : skipToStep1 lines target count hcode re lineNo colPos w with
  | none =>
    rw [hstep] at hres
    exact absurd hres (by simp)
  | some st1 =>
    rw [hstep] at hres
    exact boundInv_skipToCol _ _ _ _ _ _ _ hres
      (boundInv_skipToStep1 _ _ _ _ _ _ _ _ _ hT hstep hw)

theorem boundInv_processEvents (lines : List LineInfo) :
    ∀ (evs : List CovEvent) count hcode re lineNo colPos (w : Writer) st,
      (∀ e ∈ evs, e.line ≤ lines.length) →
      processEvents lines evs count hcode re lineNo colPos w = some st →
      BoundInv w lineNo → BoundInv st.2.2 st.1 := by
  intro evs
  induction evs with
  | nil =>
    intro count hcode re lineNo colPos w st hT hres hw
    simp only [processEvents, Option.some.injEq] at hres
    subst hres
    exact hw
  | cons e es ih =>
    intro count hcode re lineNo colPos w st hT hres hw
    unfold processEvents at hres
    cases hskip : skipTo lines e.line e.col count hcode re lineNo colPos w with
    | none =>
      rw [hskip] at hres
      exact absurd hres (by simp)
    | some st1 =>
      rw [hskip] at hres
      exact ih _ _ _ _ _ _ _ (fun e2 he2 => hT e2 (by simp [he2]))
        hres (boundInv_skipTo _ _ _ _ _ _ _ _ _ _
          (hT e (by simp)) hskip hw)

theorem boundInv_flushLoop (lines : List LineInfo) :
    ∀ fuel lineNo (w w' : Writer), flushLoop lines fuel lineNo w = some w' →
      BoundInv w lineNo → ∃ b, BoundInv w' b := by
  intro fuel
  induction fuel with
  | zero =>
    intro lineNo w w' hres hw
    simp only [flushLoop, Option.some.injEq] at hres
    subst hres
    exact ⟨lineNo, hw⟩
  | succ fuel ih =>
    intro lineNo w w' hres hw
    unfold flushLoop at hres
    by_cases h1 : lineNo ≤ lines.length
    · rw [if_pos h1] at hres
      cases hget : lines.get? (usub1 lineNo) with
      | none =>
        rw [hget] at hres
        exact absurd hres (by simp)
      | some li =>
        rw [hget] at hres
        exact ih _ _ _ hres
          (boundInv_finishLine lineNo _ (boundInv_addData _ _ _ _ _ hw))
    · rw [if_neg h1] at hres
      simp only [Option.some.injEq] at hres
      subst hres
      exact ⟨lineNo, hw⟩

theorem boundInv_flush (lines : List LineInfo) (lineNo colPos : Nat)
    (w w' : Writer) (hres : flush lines lineNo colPos w = some w')
    (hw : BoundInv w lineNo) : ∃ b, BoundInv w' b := by
  unfold flush at hres
  by_cases h1 : lineNo ≠ 0
  · rw [if_pos h1] at hres
    cases hget : lines.get? (usub1 lineNo) with
    | none =>
      rw [hget] at hres
      exact absurd hres (by simp)
    | some li =>
      rw [hget] at hres
      simp only [] at hres
      by_cases h2 : colPos ≤ li.line.length
      · rw [if_pos h2] at hres
        exact boundInv_flushLoop _ _ _ _ _ hres
          (boundInv_finishLine lineNo _ (boundInv_addData _ _ _ _ _ hw))
      · rw [if_neg h2] at hres
        exact absurd hres (by simp)
  · rw [if_neg h1] at hres
    exact boundInv_flushLoop _ _ _ _ _ hres hw

/-- Claim C4, amended: the size identities `executableLines = |hits| + |misses|`
    and `hitLines = |hits|` always hold; provided every event's line number
    stays within the source buffer, the hit and miss lists are in addition
    strictly increasing, disjoint, and each executable line number appears
    in exactly one of them (`hits ++ misses` has no duplicates).  Without
    the in-range hypothesis the disjointness half can fail
    (see the counterexample). -/
theorem c4_amended (source : List (List Char)) (events : List CovEvent)
    (extra : List (List Char)) (w' : Writer)
    (hev : ∀ e ∈ events, e.line ≤ source.length)
    (hres : processCode source events extra [] [] = some w') :
    w'.executableLines = w'.hits.length + w'.misses.length ∧
    w'.hitLines = w'.hits.length ∧
    w'.hits.Pairwise (· < ·) ∧ w'.misses.Pairwise (· < ·) ∧
    (w'.hits ++ w'.misses).Nodup := by
  have hsize := sizeInv_processCode source events extra w' hres
  unfold processCode at hres
  simp only [] at hres
  cases hev2 : processEvents (mkLines source extra) events 0 false 0 0 0
      (initWriter [] []) with
  | none =>
    rw [hev2] at hres
    exact absurd hres (by simp)
  | some st =>
    obtain ⟨ln1, cp1, w1⟩ := st
    rw [hev2] at hres
    simp only [] at hres
    have hbw : BoundInv w1 ln1 :=
      boundInv_processEvents (mkLines source extra) events 0 false 0 0 0
        (initWriter [] []) (ln1, cp1, w1)
        (by intro e he; rw [mkLines_length]; exact hev e he)
        hev2 ⟨List.Pairwise.nil, List.Pairwise.nil, by simp [initWriter],
          by simp [initWriter], by simp [initWriter]⟩
    obtain ⟨b, hph, hpm, hbh, hbm, hd⟩ := boundInv_flush _ _ _ _ _ hres hbw
    refine ⟨hsize.1, hsize.2, hph, hpm, ?_⟩
    rw [List.nodup_append]
    exact ⟨hph.imp (fun h => Nat.ne_of_lt h),
      hpm.imp (fun h => Nat.ne_of_lt h),
      fun a ha hm => hd a ha hm⟩

/-- The two-line source of the C4 witness. -/
def c4wSource : List (List Char) := ["ab".data, "cd".data]

/-- In-range events of the C4 witness: lines 1 and 2 of a two-line file. -/
def c4wEvents : List CovEvent :=
  [⟨1, 1, 0, true, false, false⟩, ⟨2, 1, 5, true, false, false⟩]

/-- The writer the C4 witness run produces. -/
def c4wr : Writer :=
  (processCode c4wSource c4wEvents [] [] []).getD (initWriter [] [])

/-- Claim C4 witness: the amended partition invariant instantiated on the
    concrete in-range run. -/
theorem c4_witness :
    (∀ e ∈ c4wEvents, e.line ≤ c4wSource.length) ∧
    (c4wr.executableLines = c4wr.hits.length + c4wr.misses.length ∧
     c4wr.hitLines = c4wr.hits.length ∧
     c4wr.hits.Pairwise (· < ·) ∧ c4wr.misses.Pairwise (· < ·) ∧
     (c4wr.hits ++ c4wr.misses).Nodup) :=
  ⟨by decide, c4_amended c4wSource c4wEvents [] c4wr (by decide) (by decide)⟩

theorem usub1_of_pos {n : Nat} (h : n ≠ 0) : usub1 n = n - 1 := by
  unfold usub1
  rw [if_neg h]

theorem get?_some_of_lt (l : List LineInfo) (n : Nat) (h : n < l.length) :
    ∃ li, l.get? n = some li := by
  cases hget : l.get? n with
  | none => exact absurd (List.get?_eq_none.mp hget) (by omega)
  | some li => exact ⟨li, rfl⟩

theorem skipToStep1_some (lines : List LineInfo) (target count : Nat)
    (hcode : Bool) (re lineNo colPos : Nat) (w : Writer)
    (hL : 1 ≤ lines.length) (htg : 1 ≤ target)
    (hln : lineNo = 0 ∨ (1 ≤ lineNo ∧ lineNo ≤ lines.length)) :
    ∃ st1, skipToStep1 lines target count hcode re lineNo colPos w = some st1 ∧
      1 ≤ st1.1 ∧ st1.1 ≤ lines.length := by
  unfold skipToStep1
  rcases hln with h0 | ⟨ha, hb⟩
  · subst h0
    rw [if_pos (by omega : target > 0), if_neg (by omega : ¬(0 : Nat) ≠ 0)]
    obtain ⟨hcl, _⟩ := skipLoop_cursor lines target count hcode re
      (target - 0) 0 colPos w (by omega)
    refine ⟨_, rfl, ?_, ?_⟩
    · rw [hcl, if_pos ⟨by omega, by omega⟩]
      omega
    · rw [hcl, if_pos ⟨by omega, by omega⟩]
      omega
  · by_cases h1 : target > lineNo
    · rw [if_pos h1, if_pos (by omega : lineNo ≠ 0)]
      rw [usub1_of_pos (by omega : lineNo ≠ 0)]
      obtain ⟨li, hget⟩ := get?_some_of_lt lines (lineNo - 1) (by omega)
      rw [hget]
      simp only []
      by_cases h3 : colPos < li.line.length
      · rw [if_pos h3]
        obtain ⟨hcl, _⟩ := skipLoop_cursor lines target count hcode re
          (target - lineNo) lineNo colPos _ (by omega)
        refine ⟨_, rfl, ?_, ?_⟩
        · rw [hcl]
          split_ifs <;> omega
        · rw [hcl]
          split_ifs <;> omega
      · rw [if_neg h3]
        obtain ⟨hcl, _⟩ := skipLoop_cursor lines target count hcode re
          (target - lineNo) lineNo colPos _ (by omega)
        refine ⟨_, rfl, ?_, ?_⟩
        · rw [hcl]
          split_ifs <;> omega
        · rw [hcl]
          split_ifs <;> omega
    · rw [if_neg h1]
      exact ⟨_, rfl, ha, hb⟩

theorem skipToCol_some (lines : List LineInfo) (col count : Nat)
    (hcode : Bool) (re : Nat) (st1 : Nat × Nat × Writer)
    (h1 : 1 ≤ st1.1) (h2 : st1.1 ≤ lines.length) :
    ∃ st, skipToCol lines col count hcode re st1 = some st ∧ st.1 = st1.1 := by
  unfold skipToCol
  by_cases hc : col > st1.2.1 + 1
  · rw [if_pos hc, usub1_of_pos (by omega : st1.1 ≠ 0)]
    obtain ⟨li, hget⟩ := get?_some_of_lt lines (st1.1 - 1) (by omega)
    rw [hget]
    exact ⟨_, rfl, rfl⟩
  · rw [if_neg hc]
    exact ⟨_, rfl, rfl⟩

/-- Claim C7, amended: provided the source buffer is non-empty, the event's line
    is at least 1, and the cursor is at the origin or within the buffer,
    `skipTo` never fails: it returns a cursor inside the buffer, substring
    extraction is clamped take-after-drop, and an extracted fragment never
    exceeds the text available after its start column.  (On an empty
    buffer `skipTo` does fail — see the counterexample.) -/
theorem c7_amended (lines : List LineInfo) (target col count : Nat)
    (hcode : Bool) (re lineNo colPos : Nat) (w : Writer)
    (hne : lines ≠ []) (htg : 1 ≤ target)
    (hln : lineNo = 0 ∨ (1 ≤ lineNo ∧ lineNo ≤ lines.length)) :
    (∃ st, skipTo lines target col count hcode re lineNo colPos w = some st ∧
      1 ≤ st.1 ∧ st.1 ≤ lines.length) ∧
    (∀ (s : List Char) (f n : Nat), getSubstr s f n = (s.drop f).take n) ∧
    (∀ (s : List Char) (f n : Nat), (getSubstr s f n).length ≤ s.length - f) := by
  refine ⟨?_, fun s f n => getSubstr_eq s f n, ?_⟩
  · have hL : 1 ≤ lines.length := by
      cases lines with
      | nil => exact absurd rfl hne
      | cons a t => simp
    obtain ⟨st1, hstep, hb1, hb2⟩ :=
      skipToStep1_some lines target count hcode re lineNo colPos w hL htg hln
    obtain ⟨st, hcol, heq⟩ :=
      skipToCol_some lines col count hcode re st1 hb1 hb2
    refine ⟨st, ?_, by omega, by omega⟩
    unfold skipTo
    rw [hstep]
    exact hcol
  · intro s f n
    rw [getSubstr_eq]
    simp only [List.length_take, List.length_drop]
    omega

/-- The one-line, ten-character source of the C7 witness. -/
def c7lines : List LineInfo := mkLines ["0123456789".data] []

/-- Claim C7 witness: an event at column 500 of the ten-character line does not
    fail, and the emitted fragment text is clamped to the ten available
    characters. -/
theorem c7_witness :
    (c7lines ≠ [] ∧ (1 : Nat) ≤ 1) ∧
    ((∃ st, skipTo c7lines 1 500 0 false 0 0 0 (initWriter [] []) = some st ∧
        1 ≤ st.1 ∧ st.1 ≤ c7lines.length) ∧
      (∀ (s : List Char) (f n : Nat), getSubstr s f n = (s.drop f).take n) ∧
      (∀ (s : List Char) (f n : Nat),
        (getSubstr s f n).length ≤ s.length - f)) ∧
    (skipTo c7lines 1 500 0 false 0 0 0 (initWriter [] [])).map
      (fun st => st.2.2.parts.map Part.str) = some ["0123456789".data] :=
  ⟨⟨by decide, by decide⟩,
   c7_amended c7lines 1 500 0 false 0 0 0 (initWriter [] [])
     (by decide) (by decide) (Or.inl rfl),
   by decide⟩

/-- The observable output of a writer: the pending fragments, the two
    statistics counters, and the emission trace — everything `processCode`
    reports, excluding the shared per-file hit/miss lists. -/
def obsW (w : Writer) : List Part × Nat × Nat × List (Nat × List Part) :=
  (w.parts, w.executableLines, w.hitLines, w.trace)

/-- Observable equality on optional cursor-and-writer results. -/
def OptObsEq : Option (Nat × Nat × Writer) → Option (Nat × Nat × Writer) → Prop
  | none, none => True
  | some a, some b => a.1 = b.1 ∧ a.2.1 = b.2.1 ∧ obsW a.2.2 = obsW b.2.2
  | _, _ => False

/-- Observable equality on optional writers. -/
def OptWObsEq : Option Writer → Option Writer → Prop
  | none, none => True
  | some a, some b => obsW a = obsW b
  | _, _ => False

theorem obs_addData (s : List Char) (c : Nat) (h r : Bool) {w1 w2 : Writer}
    (hw : obsW w1 = obsW w2) : obsW (addData s c h r w1) = obsW (addData s c h r w2) := by
  simp only [obsW, addData, Prod.mk.injEq] at hw ⊢
  obtain ⟨h1, h2, h3, h4⟩ := hw
  exact ⟨by rw [h1], h2, h3, h4⟩

theorem obs_addParts (ps : List Part) {w1 w2 : Writer}
    (hw : obsW w1 = obsW w2) : obsW (addParts ps w1) = obsW (addParts ps w2) := by
  simp only [obsW, addParts, Prod.mk.injEq] at hw ⊢
  obtain ⟨h1, h2, h3, h4⟩ := hw
  exact ⟨by rw [h1], h2, h3, h4⟩

theorem obs_finishLine (n : Nat) {w1 w2 : Writer}
    (hw : obsW w1 = obsW w2) : obsW (finishLine n w1) = obsW (finishLine n w2) := by
  simp only [obsW, Prod.mk.injEq] at hw
  obtain ⟨h1, h2, h3, h4⟩ := hw
  simp [obsW, finishLine, h1, h2, h3, h4]

theorem obs_skipLoop (lines : List LineInfo) (target count : Nat)
    (hcode : Bool) (re : Nat) :
    ∀ fuel ln cp (w1 w2 : Writer), obsW w1 = obsW w2 →
      (skipLoop lines target count hcode re fuel ln cp w1).1 =
        (skipLoop lines target count hcode re fuel ln cp w2).1 ∧
      (skipLoop lines target count hcode re fuel ln cp w1).2.1 =
        (skipLoop lines target count hcode re fuel ln cp w2).2.1 ∧
      obsW (skipLoop lines target count hcode re fuel ln cp w1).2.2 =
        obsW (skipLoop lines target count hcode re fuel ln cp w2).2.2 := by
  intro fuel
  induction fuel with
  | zero => intro ln cp w1 w2 hw; exact ⟨rfl, rfl, hw⟩
  | succ fuel ih =>
    intro ln cp w1 w2 hw
    rw [skipLoop_succ, skipLoop_succ]
    by_cases h1 : ln < target
    · by_cases h2 : ln < lines.length
      · by_cases h3 : ln + 1 < target
        · rw [if_pos h1, if_pos h1, if_pos h2, if_pos h2, if_pos h3, if_pos h3]
          exact ih (ln + 1) 0 _ _ (obs_finishLine _ (obs_addParts _ hw))
        · rw [if_pos h1, if_pos h1, if_pos h2, if_pos h2, if_neg h3, if_neg h3]
          exact ⟨rfl, rfl, hw⟩
      · rw [if_pos h1, if_pos h1, if_neg h2, if_neg h2]
        exact ⟨rfl, rfl, hw⟩
    · rw [if_neg h1, if_neg h1]
      exact ⟨rfl, rfl, hw⟩

theorem obs_skipToStep1 (lines : List LineInfo) (target count : Nat)
    (hcode : Bool) (re lineNo colPos : Nat) {w1 w2 : Writer}
    (hw : obsW w1 = obsW w2) :
    OptObsEq (skipToStep1 lines target count hcode re lineNo colPos w1)
      (skipToStep1 lines target count hcode re lineNo colPos w2) := by
  unfold skipToStep1
  by_cases h1 : target > lineNo
  · rw [if_pos h1, if_pos h1]
    by_cases h2 : lineNo ≠ 0
    · rw [if_pos h2, if_pos h2]
      cases hget : lines.get? (usub1 lineNo) with
      | none =>
        exact trivial
      | some li =>
        simp only []
        by_cases h3 : colPos < li.line.length
        · rw [if_pos h3, if_pos h3]
          exact obs_skipLoop lines target count hcode re (target - lineNo)
            lineNo colPos _ _ (obs_finishLine _ (obs_addData _ _ _ _ hw))
        · rw [if_neg h3, if_neg h3]
          exact obs_skipLoop lines target count hcode re (target - lineNo)
            lineNo colPos _ _ (obs_finishLine _ hw)
    · rw [if_neg h2, if_neg h2]
      exact obs_skipLoop lines target count hcode re (target - lineNo)
        lineNo colPos _ _ hw
  · rw [if_neg h1, if_neg h1]
    exact ⟨rfl, rfl, hw⟩

theorem obs_skipToCol (lines : List LineInfo) (col count : Nat)
    (hcode : Bool) (re : Nat) {st1 st2 : Nat × Nat × Writer}
    (hl : st1.1 = st2.1) (hc : st1.2.1 = st2.2.1)
    (hw : obsW st1.2.2 = obsW st2.2.2) :
    OptObsEq (skipToCol lines col count hcode re st1)
      (skipToCol lines col count hcode re st2) := by
  unfold skipToCol
  rw [hl, hc]
  by_cases h1 : col > st2.2.1 + 1
  · rw [if_pos h1, if_pos h1]
    cases hget : lines.get? (usub1 st2.1) with
    | none =>
      exact trivial
    | some li =>
      simp only []
      exact ⟨rfl, rfl, obs_addData _ _ _ _ hw⟩
  · rw [if_neg h1, if_neg h1]
    exact ⟨hl, hc, hw⟩

theorem obs_skipTo (lines : List LineInfo) (target col count : Nat)
    (hcode : Bool) (re lineNo colPos : Nat) {w1 w2 : Writer}
    (hw : obsW w1 = obsW w2) :
    OptObsEq (skipTo lines target col count hcode re lineNo colPos w1)
      (skipTo lines target col count hcode re lineNo colPos w2) := by
  unfold skipTo
  have hstep := obs_skipToStep1 lines target count hcode re lineNo colPos hw
  cases hs1 : skipToStep1 lines target count hcode re lineNo colPos w1 with
  | none =>
    cases hs2 : skipToStep1 lines target count hcode re lineNo colPos w2 with
    | none => exact trivial
    | some st2 =>
      rw [hs1, hs2] at hstep
      exact hstep.elim
  | some st1 =>
    cases hs2 : skipToStep1 lines target count hcode re lineNo colPos w2 with
    | none =>
      rw [hs1, hs2] at hstep
      exact hstep.elim
    | some st2 =>
      rw [hs1, hs2] at hstep
      obtain ⟨hl, hc, hww⟩ := hstep
      exact obs_skipToCol lines col count hcode re hl hc hww

theorem obs_processEvents (lines : List LineInfo) :
    ∀ (evs : List CovEvent) count hcode re lineNo colPos (w1 w2 : Writer),
      obsW w1 = obsW w2 →
      OptObsEq (processEvents lines evs count hcode re lineNo colPos w1)
        (processEvents lines evs count hcode re lineNo colPos w2) := by
  intro evs
  induction evs with
  | nil =>
    intro count hcode re lineNo colPos w1 w2 hw
    exact ⟨rfl, rfl, hw⟩
  | cons e es ih =>
    intro count hcode re lineNo colPos w1 w2 hw
    unfold processEvents
    have hskip := obs_skipTo lines e.line e.col count hcode re lineNo colPos hw
    cases hs1 : skipTo lines e.line e.col count hcode re lineNo colPos w1 with
    | none =>
      cases hs2 : skipTo lines e.line e.col count hcode re lineNo colPos w2 with
      | none =>
        exact trivial
      | some st2 =>
        rw [hs1, hs2] at hskip
        exact hskip.elim
    | some st1 =>
      cases hs2 : skipTo lines e.line e.col count hcode re lineNo colPos w2 with
      | none =>
        rw [hs1, hs2] at hskip
        exact hskip.elim
      | some st2 =>
        rw [hs1, hs2] at hskip
        obtain ⟨hl, hc, hww⟩ := hskip
        obtain ⟨l1, c1, ww1⟩ := st1
        obtain ⟨l2, c2, ww2⟩ := st2
        simp only [] at hl hc
        subst hl
        subst hc
        simp only []
        exact ih _ _ _ _ _ _ _ hww

theorem obs_flushLoop (lines : List LineInfo) :
    ∀ fuel lineNo (w1 w2 : Writer), obsW w1 = obsW w2 →
      OptWObsEq (flushLoop lines fuel lineNo w1) (flushLoop lines fuel lineNo w2) := by
  intro fuel
  induction fuel with
  | zero => intro lineNo w1 w2 hw; exact hw
  | succ fuel ih =>
    intro lineNo w1 w2 hw
    unfold flushLoop
    by_cases h1 : lineNo ≤ lines.length
    · rw [if_pos h1, if_pos h1]
      cases hget : lines.get? (usub1 lineNo) with
      | none =>
        exact trivial
      | some li =>
        simp only []
        exact ih _ _ _ (obs_finishLine _ (obs_addData _ _ _ _ hw))
    · rw [if_neg h1, if_neg h1]
      exact hw

theorem obs_flush (lines : List LineInfo) (lineNo colPos : Nat)
    {w1 w2 : Writer} (hw : obsW w1 = obsW w2) :
    OptWObsEq (flush lines lineNo colPos w1) (flush lines lineNo colPos w2) := by
  unfold flush
  by_cases h1 : lineNo ≠ 0
  · rw [if_pos h1, if_pos h1]
    cases hget : lines.get? (usub1 lineNo) with
    | none =>
      exact trivial
    | some li =>
      simp only []
      by_cases h2 : colPos ≤ li.line.length
      · rw [if_pos h2, if_pos h2]
        exact obs_flushLoop lines _ _ _ _ (obs_finishLine _ (obs_addData _ _ _ _ hw))
      · rw [if_neg h2, if_neg h2]
        exact trivial
  · rw [if_neg h1, if_neg h1]
    exact obs_flushLoop lines _ _ _ _ hw

/-- Claim C9: the reconstruction pipeline is a deterministic function of the
    source text, the event stream and the extra-ignore list: two runs on
    the same inputs — even starting from different accumulated per-file
    hit/miss lists, the only state `processCode` shares between runs —
    produce identical emission traces, identical statistics, and identical
    pending fragments. -/
theorem c9_determinism (source : List (List Char)) (events : List CovEvent)
    (extra : List (List Char)) (h1s m1s h2s m2s : List Nat) (w1 w2 : Writer)
    (r1 : processCode source events extra h1s m1s = some w1)
    (r2 : processCode source events extra h2s m2s = some w2) :
    w1.trace = w2.trace ∧ w1.executableLines = w2.executableLines ∧
    w1.hitLines = w2.hitLines ∧ w1.parts = w2.parts := by
  unfold processCode at r1 r2
  simp only [] at r1 r2
  have hpe := obs_processEvents (mkLines source extra) events 0 false 0 0 0
    (initWriter h1s m1s) (initWriter h2s m2s) rfl
  cases hev1 : processEvents (mkLines source extra) events 0 false 0 0 0
      (initWriter h1s m1s) with
  | none =>
    rw [hev1] at r1
    exact absurd r1 (by simp)
  | some st1 =>
    cases hev2 : processEvents (mkLines source extra) events 0 false 0 0 0
        (initWriter h2s m2s) with
    | none =>
      rw [hev1, hev2] at hpe
      exact hpe.elim
    | some st2 =>
      rw [hev1, hev2] at hpe
      obtain ⟨hl, hc, hww⟩ := hpe
      obtain ⟨l1, c1, ww1⟩ := st1
      obtain ⟨l2, c2, ww2⟩ := st2
      simp only [] at hl hc
      subst hl
      subst hc
      rw [hev1] at r1
      rw [hev2] at r2
      simp only [] at r1 r2
      have hf := obs_flush (mkLines source extra) l1 c1 hww
      rw [r1, r2] at hf
      have hobs : obsW w1 = obsW w2 := hf
      simp only [obsW, Prod.mk.injEq] at hobs
      exact ⟨hobs.2.2.2, hobs.2.1, hobs.2.2.1, hobs.1⟩

/-- The one-line source of the C9 witness. -/
def c9source : List (List Char) := [['a']]

/-- The single event of the C9 witness. -/
def c9events : List CovEvent := [⟨1, 1, 0, true, false, false⟩]

/-- The writers produced by the two C9 witness runs: one from empty
    accumulated hit/miss lists, one from non-empty ones. -/
def c9w1 : Writer := (processCode c9source c9events [] [] []).getD (initWriter [] [])

/-- The second C9 witness writer. -/
def c9w2 : Writer :=
  (processCode c9source c9events [] [5] [7]).getD (initWriter [] [])

/-- Claim C9 witness: the determinism theorem instantiated on two concrete runs
    differing only in the accumulated hit/miss lists. -/
theorem c9_witness :
    processCode c9source c9events [] [] [] = some c9w1 ∧
    processCode c9source c9events [] [5] [7] = some c9w2 ∧
    (c9w1.trace = c9w2.trace ∧ c9w1.executableLines = c9w2.executableLines ∧
      c9w1.hitLines = c9w2.hitLines ∧ c9w1.parts = c9w2.parts) :=
  ⟨by decide, by decide,
    c9_determinism c9source c9events [] [] [] [5] [7] c9w1 c9w2
      (by decide) (by decide)⟩

end Llvmcov
